import Mathlib

/-!
Verification of the reference bump-pointer allocator of mmtk-core
(src/examples/reference_bump_allocator.c and src/bench/bump_allocator.c).

Addresses and size_t values are modelled as natural numbers taken modulo
the word size W = 2^64; the C code's bitwise operations are Nat.land and
Nat.xor (the C complement ~m on a 64-bit word is (W - 1) ^^^ m), and
two's-complement signed arithmetic on ssize_t is bit-identical to
arithmetic modulo W, which is how it is embedded here.
-/

namespace BumpAlloc

/-- The number of values of a 64-bit machine word (size_t / ssize_t / void*). -/
def W : Nat := 2 ^ 64

/-- SPACE_ALIGN = 1 << 19 from gc_init. -/
def SPACE_ALIGN : Nat := 2 ^ 19

/-- The Space struct of both allocator variants: heap_start, heap_end,
heap_cursor, each a machine address. -/
structure Space where
  heap_start : Nat
  heap_end : Nat
  heap_cursor : Nat
deriving DecidableEq

/-- align_up from both C files: (addr + align - 1) & ~(align - 1), computed on
size_t, i.e. modulo W.  In C, align - 1 wraps when align = 0, hence the
(align + (W - 1)) % W form, which agrees with align - 1 for 1 ≤ align ≤ W. -/
def align_up (addr align : Nat) : Nat :=
  ((addr + align + (W - 1)) % W) &&& ((W - 1) ^^^ ((align + (W - 1)) % W))

/-- align_allocation from src/examples/reference_bump_allocator.c:
mask = align - 1; delta = ((-offset) - region) & mask; region + delta,
all on ssize_t, whose bit patterns coincide with arithmetic modulo W. -/
def align_allocation (region align offset : Nat) : Nat :=
  let mask := (align + (W - 1)) % W
  let neg_off := (W - offset % W) % W
  let delta := ((neg_off + (W - region % W)) % W) &&& mask
  (region % W + delta) % W

/-- alloc from src/examples/reference_bump_allocator.c.  The mutator handle and
the allocator tag are parameters of the C function that its body never reads.
NULL return is modelled as none. -/
def alloc (mutator : Option Nat) (s : Space) (size align offset : Nat)
    (allocator : Int) : Option Nat × Space :=
  let result := align_allocation s.heap_cursor align offset
  let new_cursor := (result + size) % W
  if s.heap_end < new_cursor then (none, s)
  else (some result, ⟨s.heap_start, s.heap_end, new_cursor⟩)

/-- bind_mutator from src/examples/reference_bump_allocator.c: returns NULL. -/
def bind_mutator (tls : Nat) : Option Nat := none

/-- mmap's failure sentinel MAP_FAILED = (void*)-1 (POSIX); on a 64-bit word its
bit pattern is 2^64 - 1.  Note that it is not NULL. -/
def MAP_FAILED : Nat := W - 1

/-- gc_init from src/examples/reference_bump_allocator.c.  The value returned by
the mmap call is passed in as alloced; the code's failure branch
(if (!alloced) { printf(...); exit(1); }) is modelled as none. -/
def gc_init (alloced heap_size : Nat) : Option Space :=
  if alloced % W = 0 then none
  else
    let start := align_up alloced SPACE_ALIGN
    some ⟨start, (start + heap_size) % W, start⟩

/-- mmtk_malloc from src/examples/reference_bump_allocator.c:
alloc(NULL, size, 1, 0, 0). -/
def mmtk_malloc (s : Space) (size : Nat) : Option Nat × Space :=
  alloc none s size 1 0 0

/-- mmtk_free from src/examples/reference_bump_allocator.c: an empty body. -/
def mmtk_free (s : Space) (ptr : Nat) : Space := s

namespace Bench

/-- alloc from src/bench/bump_allocator.c: the candidate is
align_up(heap_cursor, align); there is no offset parameter. -/
def alloc (s : Space) (size align : Nat) : Option Nat × Space :=
  let result := align_up s.heap_cursor align
  let new_cursor := (result + size) % W
  if s.heap_end < new_cursor then (none, s)
  else (some result, ⟨s.heap_start, s.heap_end, new_cursor⟩)

/-- gc_init from src/bench/bump_allocator.c.  Identical to the reference one
except that the backing store comes from malloc, whose failure sentinel
really is NULL, so here the check if (!alloced) does catch failure. -/
def gc_init (alloced heap_size : Nat) : Option Space :=
  if alloced % W = 0 then none
  else
    let start := align_up alloced SPACE_ALIGN
    some ⟨start, (start + heap_size) % W, start⟩

end Bench

/-- A call against the malloc-compatible adapter. -/
inductive Call where
  | malloc (size : Nat)
  | free (ptr : Nat)

/-- Run an interleaving of mmtk_malloc and mmtk_free calls, threading the
Space through. -/
def runCalls (s : Space) : List Call → Space
  | [] => s
  | Call.malloc n :: rest => runCalls (mmtk_malloc s n).2 rest
  | Call.free p :: rest => runCalls (mmtk_free s p) rest

def isMalloc : Call → Bool
  | Call.malloc _ => true
  | Call.free _ => false

/-- Fold a list of (size, align, offset) requests through alloc. -/
def runAllocs (s : Space) : List (Nat × Nat × Nat) → Space
  | [] => s
  | r :: rest => runAllocs (alloc none s r.1 r.2.1 r.2.2 0).2 rest

/-- The central region invariant: start ≤ cursor ≤ end, with end a machine
address. -/
def Inv (s : Space) : Prop :=
  s.heap_start ≤ s.heap_cursor ∧ s.heap_cursor ≤ s.heap_end ∧ s.heap_end < W

theorem W_pos : 0 < W := by norm_num [W]

theorem two_pow_dvd_W {k : Nat} (hk : k ≤ 64) : 2 ^ k ∣ W :=
  pow_dvd_pow 2 hk

theorem two_pow_le_W {k : Nat} (hk : k ≤ 64) : 2 ^ k ≤ W :=
  Nat.pow_le_pow_right (by norm_num) hk

/-- (align + (W - 1)) % W is the bit pattern of align - 1 for 1 ≤ align ≤ W. -/
theorem mask_eq {a : Nat} (ha : 0 < a) (haW : a ≤ W) :
    (a + (W - 1)) % W = a - 1 := by
  have h1 : a + (W - 1) = (a - 1) + W := by omega
  rw [h1, Nat.add_mod_right, Nat.mod_eq_of_lt (by omega)]

/-- Clearing the low k bits of a 64-bit word y with the complement mask
~(2^k - 1) rounds y down to a multiple of 2^k. -/
theorem and_not_mask {y k : Nat} (hy : y < W) (hk : k ≤ 64) :
    y &&& ((W - 1) ^^^ (2 ^ k - 1)) = 2 ^ k * (y / 2 ^ k) := by
  apply Nat.eq_of_testBit_eq
  intro i
  rw [Nat.testBit_and, Nat.testBit_xor, W, Nat.testBit_two_pow_sub_one,
    Nat.testBit_two_pow_sub_one, Nat.testBit_mul_pow_two,
    ← Nat.shiftRight_eq_div_pow, Nat.testBit_shiftRight]
  rcases Nat.lt_or_ge i k with h1 | h1
  · simp [h1, Nat.lt_of_lt_of_le h1 hk, Nat.not_le_of_lt h1]
  · rcases Nat.lt_or_ge i 64 with h2 | h2
    · have h3 : k + (i - k) = i := by omega
      simp [h2, Nat.not_lt_of_le h1, h1, h3]
    · have h3 : y.testBit i = false := by
        apply Nat.testBit_lt_two_pow
        calc y < W := hy
          _ = 2 ^ 64 := rfl
          _ ≤ 2 ^ i := Nat.pow_le_pow_right (by norm_num) h2
      have h4 : k + (i - k) = i := by omega
      simp [Nat.not_lt_of_le h1, Nat.not_lt_of_le h2, h1, h4, h3]

/-- Closed form of align_allocation for a power-of-two align. -/
theorem align_allocation_eq (region offset k : Nat) (hk : k ≤ 64) :
    align_allocation region (2 ^ k) offset =
      (region % W + (2 * W - offset % W - region % W) % 2 ^ k) % W := by
  have ha : (0 : Nat) < 2 ^ k := Nat.pos_pow_of_pos k (by norm_num)
  have hdvd : 2 ^ k ∣ W := two_pow_dvd_W hk
  have hO : offset % W < W := Nat.mod_lt _ W_pos
  have hR : region % W < W := Nat.mod_lt _ W_pos
  unfold align_allocation
  simp only [mask_eq ha (two_pow_le_W hk), Nat.and_pow_two_sub_one_eq_mod]
  rw [Nat.mod_mod_of_dvd _ hdvd]
  congr 2
  rw [Nat.add_mod, Nat.mod_mod_of_dvd _ hdvd, ← Nat.add_mod]
  congr 1
  omega

theorem align_allocation_lt (region align offset : Nat) :
    align_allocation region align offset < W :=
  Nat.mod_lt _ W_pos

/-- C1: for every region_cursor, every align = 2^k that is a power of two, and
every signed offset (given by its 64-bit two's-complement pattern), the result
r of align_allocation satisfies (r + offset) mod align = 0, and r lies in the
half-open window of length align starting at region_cursor, where the
difference r - region_cursor is taken modulo the address width W; when the
window does not wrap around the address space, literally
region_cursor ≤ r < region_cursor + align. -/
theorem align_allocation_spec (region offset k : Nat) (hk : k ≤ 64)
    (hr : region < W) (ho : offset < W) :
    (align_allocation region (2 ^ k) offset + offset) % 2 ^ k = 0 ∧
    (align_allocation region (2 ^ k) offset + (W - region)) % W < 2 ^ k ∧
    (region + 2 ^ k ≤ W →
      region ≤ align_allocation region (2 ^ k) offset ∧
      align_allocation region (2 ^ k) offset < region + 2 ^ k) := by
  have ha : (0 : Nat) < 2 ^ k := Nat.pos_pow_of_pos k (by norm_num)
  have hdvd : 2 ^ k ∣ W := two_pow_dvd_W hk
  rw [align_allocation_eq region offset k hk, Nat.mod_eq_of_lt hr,
    Nat.mod_eq_of_lt ho]
  set a := 2 ^ k with haa
  set d := (2 * W - offset - region) % a with hd
  have hdlt : d < a := Nat.mod_lt _ ha
  have hdW : d < W := lt_of_lt_of_le hdlt (two_pow_le_W hk)
  have h2W : 2 * W % a = 0 := by
    obtain ⟨c, hc⟩ := hdvd
    rw [hc, show 2 * (a * c) = a * (2 * c) by ring]
    exact Nat.mul_mod_right a (2 * c)
  refine ⟨?_, ?_, ?_⟩
  · rw [Nat.add_mod, Nat.mod_mod_of_dvd _ hdvd, ← Nat.add_mod,
      Nat.add_right_comm, hd, Nat.add_mod_mod,
      show region + offset + (2 * W - offset - region) = 2 * W by omega, h2W]
  · rw [Nat.mod_add_mod, show region + d + (W - region) = d + W by omega,
      Nat.add_mod_right, Nat.mod_eq_of_lt hdW]
    exact hdlt
  · intro hfit
    rw [Nat.mod_eq_of_lt (by omega)]
    omega

/-- Witness for align_allocation_spec: cursor 100, align 16, offset 3
(the result is 109: 109 + 3 = 112 is a multiple of 16). -/
theorem align_allocation_spec_witness :
    (align_allocation 100 (2 ^ 4) 3 + 3) % 2 ^ 4 = 0 ∧
    (align_allocation 100 (2 ^ 4) 3 + (W - 100)) % W < 2 ^ 4 ∧
    100 ≤ align_allocation 100 (2 ^ 4) 3 ∧
    align_allocation 100 (2 ^ 4) 3 < 100 + 2 ^ 4 := by
  have h := align_allocation_spec 100 3 4 (by norm_num)
    (by norm_num [W]) (by norm_num [W])
  exact ⟨h.1, h.2.1, h.2.2 (by norm_num [W])⟩

/-- Closed form of align_up for a power-of-two align: round the (wrapped)
addr + align - 1 down to a multiple of 2^k. -/
theorem align_up_eq (addr k : Nat) (hk : k ≤ 64) :
    align_up addr (2 ^ k) = 2 ^ k * (((addr + (2 ^ k - 1)) % W) / 2 ^ k) := by
  have ha : (0 : Nat) < 2 ^ k := Nat.pos_pow_of_pos k (by norm_num)
  have hW : 0 < W := W_pos
  unfold align_up
  rw [mask_eq ha (two_pow_le_W hk),
    show addr + 2 ^ k + (W - 1) = addr + (2 ^ k - 1) + W by omega,
    Nat.add_mod_right]
  exact and_not_mask (Nat.mod_lt _ W_pos) hk

/-- align_up lands in the window [C, C + 2^k) (modularly) and is a multiple
of 2^k. -/
theorem align_up_window (C k : Nat) (hk : k ≤ 64) (hC : C < W) :
    align_up C (2 ^ k) % 2 ^ k = 0 ∧
    align_up C (2 ^ k) < W ∧
    (align_up C (2 ^ k) + (W - C)) % W < 2 ^ k := by
  have ha : (0 : Nat) < 2 ^ k := Nat.pos_pow_of_pos k (by norm_num)
  have haW : 2 ^ k ≤ W := two_pow_le_W hk
  rw [align_up_eq C k hk]
  set a := 2 ^ k with haa
  set z := (C + (a - 1)) % W with hz
  have hzW : z < W := Nat.mod_lt _ W_pos
  set r := z % a with hr
  have hra : r < a := Nat.mod_lt _ ha
  have hrz : r ≤ z := Nat.mod_le z a
  have hu : a * (z / a) = z - r := by
    have := Nat.div_add_mod z a
    omega
  set b := (C + (a - 1)) / W with hb
  have hzb : z + W * b = C + (a - 1) := Nat.mod_add_div (C + (a - 1)) W
  have hb1 : b ≤ 1 := by
    have h2 : (C + (a - 1)) / W < 2 := Nat.div_lt_of_lt_mul (by omega)
    omega
  refine ⟨Nat.mul_mod_right a _, by omega, ?_⟩
  rw [hu]
  rcases Nat.le_one_iff_eq_zero_or_eq_one.mp hb1 with h0 | h1
  · rw [h0, Nat.mul_zero, Nat.add_zero] at hzb
    rw [show z - r + (W - C) = a - 1 - r + W by omega, Nat.add_mod_right,
      Nat.mod_eq_of_lt (by omega)]
    omega
  · rw [h1, Nat.mul_one] at hzb
    rw [show z - r + (W - C) = a - 1 - r by omega, Nat.mod_eq_of_lt (by omega)]
    omega

theorem align_allocation_mod (region align offset : Nat) :
    align_allocation (region % W) align offset =
      align_allocation region align offset := by
  simp only [align_allocation, Nat.mod_mod_of_dvd _ (dvd_refl W)]

theorem align_up_mod (addr align : Nat) :
    align_up (addr % W) align = align_up addr align := by
  unfold align_up
  conv_lhs => rw [Nat.add_assoc]
  conv_rhs => rw [Nat.add_assoc]
  rw [Nat.mod_add_mod]

/-- Two addresses below W that are both multiples of a window quantum a ∣ W
(more generally: agree mod a) and both lie in the modular window of length a
starting at C are equal. -/
theorem mod_window_unique {a x y C : Nat} (ha : 0 < a) (hdvd : a ∣ W)
    (hx : x < W) (hy : y < W) (hC : C < W)
    (hxw : (x + (W - C)) % W < a) (hyw : (y + (W - C)) % W < a)
    (hmod : x % a = y % a) : x = y := by
  set dx := (x + (W - C)) % W with hdx
  set dy := (y + (W - C)) % W with hdy
  have hxe : (C + dx) % W = x := by
    rw [hdx, Nat.add_mod_mod, show C + (x + (W - C)) = x + W by omega,
      Nat.add_mod_right, Nat.mod_eq_of_lt hx]
  have hye : (C + dy) % W = y := by
    rw [hdy, Nat.add_mod_mod, show C + (y + (W - C)) = y + W by omega,
      Nat.add_mod_right, Nat.mod_eq_of_lt hy]
  have hda : dx % a = dy % a := by
    have h1 : (C + dx) % a = (C + dy) % a := by
      rw [← Nat.mod_mod_of_dvd (C + dx) hdvd, ← Nat.mod_mod_of_dvd (C + dy) hdvd,
        hxe, hye, hmod]
    exact Nat.ModEq.add_left_cancel' C h1
  rw [Nat.mod_eq_of_lt hxw, Nat.mod_eq_of_lt hyw] at hda
  rw [← hxe, ← hye, hda]

/-- C7: the simple alignment helper is the offset = 0 degenerate case of the
offset-aware one: align_allocation(cursor, 2^k, 0) = align_up(cursor, 2^k) for
every cursor, and consequently the reference alloc at offset 0 and the bench
alloc compute the same candidate, the same return value and the same state. -/
theorem align_up_degenerate (k : Nat) (hk : k ≤ 64) :
    (∀ cursor : Nat,
      align_allocation cursor (2 ^ k) 0 = align_up cursor (2 ^ k)) ∧
    (∀ (m : Option Nat) (s : Space) (size : Nat) (tag : Int),
      alloc m s size (2 ^ k) 0 tag = Bench.alloc s size (2 ^ k)) := by
  have ha : (0 : Nat) < 2 ^ k := Nat.pos_pow_of_pos k (by norm_num)
  have key : ∀ cursor : Nat,
      align_allocation cursor (2 ^ k) 0 = align_up cursor (2 ^ k) := by
    intro cursor
    rw [← align_allocation_mod, ← align_up_mod]
    set C := cursor % W with hCdef
    have hCW : C < W := Nat.mod_lt _ W_pos
    have hspec := align_allocation_spec C 0 k hk hCW W_pos
    have hwin := align_up_window C k hk hCW
    refine mod_window_unique ha (two_pow_dvd_W hk) (align_allocation_lt _ _ _)
      hwin.2.1 hCW hspec.2.1 hwin.2.2 ?_
    have h1 : align_allocation C (2 ^ k) 0 % 2 ^ k = 0 := by
      have := hspec.1
      simpa using this
    rw [h1, hwin.1]
  exact ⟨key, fun m s size tag => by
    simp only [alloc, Bench.alloc, key s.heap_cursor]⟩

/-- Witness for align_up_degenerate at k = 4 (align 16), cursor 100 and a
concrete allocation state. -/
theorem align_up_degenerate_witness :
    align_allocation 100 (2 ^ 4) 0 = align_up 100 (2 ^ 4) ∧
    alloc none ⟨0, 200, 100⟩ 8 (2 ^ 4) 0 0 = Bench.alloc ⟨0, 200, 100⟩ 8 (2 ^ 4) := by
  have h := align_up_degenerate 4 (by norm_num)
  exact ⟨h.1 100, h.2 none ⟨0, 200, 100⟩ 8 0⟩

/-- C2: when the machine-word comparison new_cursor > heap_end fires, alloc
returns NULL with the Space (start, end and cursor) bit-for-bit unchanged, and
issuing the identical request against the unchanged state fails identically. -/
theorem alloc_fail_idempotent (m : Option Nat) (s : Space)
    (size align offset : Nat) (tag : Int)
    (h : s.heap_end < (align_allocation s.heap_cursor align offset + size) % W) :
    alloc m s size align offset tag = (none, s) ∧
    alloc m (alloc m s size align offset tag).2 size align offset tag =
      (none, s) := by
  have h1 : alloc m s size align offset tag = (none, s) := by
    simp only [alloc]
    rw [if_pos h]
  exact ⟨h1, by rw [h1]; exact h1⟩

/-- Witness for alloc_fail_idempotent: region [0, 4), cursor 0, request of
size 5 fails twice without moving the cursor. -/
theorem alloc_fail_idempotent_witness :
    alloc none ⟨0, 4, 0⟩ 5 1 0 0 = (none, ⟨0, 4, 0⟩) ∧
    alloc none (alloc none ⟨0, 4, 0⟩ 5 1 0 0).2 5 1 0 0 = (none, ⟨0, 4, 0⟩) :=
  alloc_fail_idempotent none ⟨0, 4, 0⟩ 5 1 0 0 (by decide)

/-- C4: the exhaustion bound is inclusive: a request whose aligned candidate
plus size lands exactly on heap_end succeeds, returning the candidate and
setting the cursor to heap_end; the same with one byte more returns NULL and
leaves the state unchanged. -/
theorem alloc_boundary (m : Option Nat) (s : Space) (size align offset : Nat)
    (tag : Int) (hend : s.heap_end + 1 < W) :
    (align_allocation s.heap_cursor align offset + size = s.heap_end →
      alloc m s size align offset tag =
        (some (align_allocation s.heap_cursor align offset),
          ⟨s.heap_start, s.heap_end, s.heap_end⟩)) ∧
    (align_allocation s.heap_cursor align offset + size = s.heap_end + 1 →
      alloc m s size align offset tag = (none, s)) := by
  constructor
  · intro h
    simp only [alloc, h]
    rw [Nat.mod_eq_of_lt (by omega), if_neg (lt_irrefl _)]
  · intro h
    simp only [alloc, h]
    rw [Nat.mod_eq_of_lt hend, if_pos (Nat.lt_succ_self _)]

/-- Witness for alloc_boundary: region [0, 16), cursor 0; a 16-byte request
fills the region exactly, a 17-byte request fails. -/
theorem alloc_boundary_witness :
    alloc none ⟨0, 16, 0⟩ 16 1 0 0 = (some 0, ⟨0, 16, 16⟩) ∧
    alloc none ⟨0, 16, 0⟩ 17 1 0 0 = (none, ⟨0, 16, 0⟩) := by
  constructor
  · have h := (alloc_boundary none ⟨0, 16, 0⟩ 16 1 0 0
      (by norm_num [W])).1 (by decide)
    rw [h]
    rfl
  · exact (alloc_boundary none ⟨0, 16, 0⟩ 17 1 0 0
      (by norm_num [W])).2 (by decide)

/-- C8: alloc never reads its mutator handle or its allocator-kind tag: any
two calls differing only in those arguments return the same pointer and the
same state; bind_mutator returns the NULL handle. -/
theorem alloc_ignores_handle_and_tag (m1 m2 : Option Nat) (s : Space)
    (size align offset : Nat) (k1 k2 : Int) (tls : Nat) :
    alloc m1 s size align offset k1 = alloc m2 s size align offset k2 ∧
    bind_mutator tls = none :=
  ⟨rfl, rfl⟩

/-- C10: the exhaustion check is evaluated on the sum wrapped modulo W.  With
start 0, end 200, cursor 100 and size 2^64 - 50 (align 1, offset 0), the
candidate is 100, candidate + size wraps to 50 ≤ 200, so alloc returns the
non-NULL pointer 100 and sets the cursor to 50, below its previous value. -/
theorem alloc_overflow_unsafe :
    (alloc none ⟨0, 200, 100⟩ (W - 50) 1 0 0).1 = some 100 ∧
    (alloc none ⟨0, 200, 100⟩ (W - 50) 1 0 0).2.heap_cursor = 50 ∧
    (alloc none ⟨0, 200, 100⟩ (W - 50) 1 0 0).2.heap_cursor <
      (⟨0, 200, 100⟩ : Space).heap_cursor := by decide

/-- C6 (divergence witness): POSIX mmap reports failure by returning
MAP_FAILED = (void*)-1, never NULL, but gc_init's failure branch only tests
(!alloced).  On a failed reservation the test does not fire and gc_init
returns normally with a bogus region (start = align_up(2^64 - 1, 2^19) = 0)
instead of printing a diagnostic and terminating. -/
theorem gc_init_mmap_failure_returns :
    gc_init MAP_FAILED 1048576 = some ⟨0, 1048576, 0⟩ := by decide

/-- align_up rounds up to the next multiple of 2^k when no wraparound
occurs. -/
theorem align_up_spec (addr k : Nat) (hk : k ≤ 64) (hfit : addr + 2 ^ k ≤ W) :
    align_up addr (2 ^ k) % 2 ^ k = 0 ∧
    addr ≤ align_up addr (2 ^ k) ∧
    align_up addr (2 ^ k) < addr + 2 ^ k := by
  have ha : (0 : Nat) < 2 ^ k := Nat.pos_pow_of_pos k (by norm_num)
  rw [align_up_eq addr k hk]
  set a := 2 ^ k with haa
  have hlt : addr + (a - 1) < W := by omega
  rw [Nat.mod_eq_of_lt hlt]
  have hdm := Nat.div_add_mod (addr + (a - 1)) a
  have hm : (addr + (a - 1)) % a < a := Nat.mod_lt _ ha
  exact ⟨Nat.mul_mod_right a _, by omega, by omega⟩

/-- C5: for every capacity and successfully reserved raw base (nonzero, and
with base + capacity + SPACE_ALIGN fitting in the address space), gc_init
produces a region whose start is the base rounded up to the space-alignment
quantum 2^19 (so start is a multiple of 2^19 and start - base < 2^19), with
end = start + capacity, cursor = start and start ≤ end. -/
theorem gc_init_spec (alloced heap_size : Nat) (h0 : 0 < alloced)
    (hfit : alloced + heap_size + SPACE_ALIGN ≤ W) :
    ∃ s : Space, gc_init alloced heap_size = some s ∧
      s.heap_start % SPACE_ALIGN = 0 ∧
      alloced ≤ s.heap_start ∧
      s.heap_start < alloced + SPACE_ALIGN ∧
      s.heap_end = s.heap_start + heap_size ∧
      s.heap_cursor = s.heap_start ∧
      s.heap_start ≤ s.heap_end := by
  have hSA : SPACE_ALIGN = 2 ^ 19 := rfl
  have hSApos : 0 < SPACE_ALIGN := by norm_num [SPACE_ALIGN]
  have haW : alloced < W := by omega
  have hne : ¬ alloced % W = 0 := by rw [Nat.mod_eq_of_lt haW]; omega
  have hup := align_up_spec alloced 19 (by norm_num) (by rw [← hSA]; omega)
  rw [← hSA] at hup
  have hendlt : align_up alloced SPACE_ALIGN + heap_size < W := by omega
  refine ⟨⟨align_up alloced SPACE_ALIGN,
      (align_up alloced SPACE_ALIGN + heap_size) % W,
      align_up alloced SPACE_ALIGN⟩, ?_, hup.1, hup.2.1, hup.2.2, ?_, rfl, ?_⟩
  · simp only [gc_init, if_neg hne]
  · exact Nat.mod_eq_of_lt hendlt
  · show align_up alloced SPACE_ALIGN ≤ (align_up alloced SPACE_ALIGN + heap_size) % W
    rw [Nat.mod_eq_of_lt hendlt]
    omega

/-- Witness for gc_init_spec: base 5, capacity 2^20; start is 2^19. -/
theorem gc_init_spec_witness :
    ∃ s : Space, gc_init 5 1048576 = some s ∧
      s.heap_start % SPACE_ALIGN = 0 ∧
      (5 : Nat) ≤ s.heap_start ∧
      s.heap_start < 5 + SPACE_ALIGN ∧
      s.heap_end = s.heap_start + 1048576 ∧
      s.heap_cursor = s.heap_start ∧
      s.heap_start ≤ s.heap_end :=
  gc_init_spec 5 1048576 (by norm_num) (by norm_num [SPACE_ALIGN, W])

/-- C9: mmtk_free is a no-op on the region (start, end and cursor unchanged),
so any interleaving of mmtk_malloc and mmtk_free calls drives the region
through exactly the states of the same sequence with every free erased: the
space consumed is contributed by the successful mallocs alone, regardless of
how many frees occur, and the region bounds never change. -/
theorem mmtk_free_noop :
    (∀ (s : Space) (ptr : Nat), mmtk_free s ptr = s) ∧
    (∀ (s : Space) (calls : List Call),
      runCalls s calls = runCalls s (calls.filter isMalloc)) ∧
    (∀ (s : Space) (calls : List Call),
      (runCalls s calls).heap_start = s.heap_start ∧
      (runCalls s calls).heap_end = s.heap_end) := by
  have hfree : ∀ (s : Space) (ptr : Nat), mmtk_free s ptr = s := fun s ptr => rfl
  have hfilter : ∀ (calls : List Call) (s : Space),
      runCalls s calls = runCalls s (calls.filter isMalloc) := by
    intro calls
    induction calls with
    | nil => intro s; rfl
    | cons c rest ih =>
      intro s
      cases c with
      | malloc n =>
        simp only [List.filter_cons, isMalloc, if_pos, runCalls]
        exact ih _
      | free p =>
        simp only [List.filter_cons, isMalloc, if_neg, runCalls, mmtk_free]
        exact ih s
  have hframe : ∀ (calls : List Call) (s : Space),
      (runCalls s calls).heap_start = s.heap_start ∧
      (runCalls s calls).heap_end = s.heap_end := by
    intro calls
    induction calls with
    | nil => intro s; exact ⟨rfl, rfl⟩
    | cons c rest ih =>
      intro s
      cases c with
      | malloc n =>
        have hstep : (mmtk_malloc s n).2.heap_start = s.heap_start ∧
            (mmtk_malloc s n).2.heap_end = s.heap_end := by
          simp only [mmtk_malloc, alloc]
          split
          · exact ⟨rfl, rfl⟩
          · exact ⟨rfl, rfl⟩
        have h := ih (mmtk_malloc s n).2
        exact ⟨by rw [runCalls, h.1, hstep.1], by rw [runCalls, h.2, hstep.2]⟩
      | free p =>
        have h := ih s
        exact ⟨by rw [runCalls, mmtk_free] at *; exact h.1,
          by rw [runCalls, mmtk_free] at *; exact h.2⟩
  exact ⟨hfree, fun s calls => hfilter calls s, fun s calls => hframe calls s⟩

/-- When the region does not wrap, the aligned candidate lies in
[cursor, cursor + align); this needs no power-of-two hypothesis because the
masked delta is at most align - 1. -/
theorem align_allocation_bounds (region align offset : Nat)
    (hr : region < W) (ha : 0 < align) (hfit : region + align ≤ W) :
    region ≤ align_allocation region align offset ∧
    align_allocation region align offset < region + align := by
  have haW : align ≤ W := by omega
  simp only [align_allocation, mask_eq ha haW]
  rw [Nat.mod_eq_of_lt hr]
  set delta := ((W - offset % W) % W + (W - region)) % W &&& (align - 1)
    with hdelta
  have hd : delta ≤ align - 1 := Nat.and_le_right
  rw [Nat.mod_eq_of_lt (by omega)]
  omega

/-- Single-step preservation: under the region invariant and a request that
cannot wrap the address space, alloc preserves the invariant, never moves the
cursor down, never touches start or end, and on success moves the cursor to
candidate + size. -/
theorem alloc_step_inv (m : Option Nat) (s : Space) (size align offset : Nat)
    (tag : Int) (hInv : Inv s) (halign : 0 < align)
    (hfit : size + align + s.heap_end ≤ W) :
    Inv (alloc m s size align offset tag).2 ∧
    s.heap_cursor ≤ (alloc m s size align offset tag).2.heap_cursor ∧
    (alloc m s size align offset tag).2.heap_start = s.heap_start ∧
    (alloc m s size align offset tag).2.heap_end = s.heap_end ∧
    (∀ c, (alloc m s size align offset tag).1 = some c →
      c = align_allocation s.heap_cursor align offset ∧
      (alloc m s size align offset tag).2.heap_cursor = c + size) := by
  obtain ⟨h1, h2, h3⟩ := hInv
  have hcW : s.heap_cursor < W := by omega
  have hb := align_allocation_bounds s.heap_cursor align offset hcW halign
    (by omega)
  set cand := align_allocation s.heap_cursor align offset with hcand
  have hnc : (cand + size) % W = cand + size := Nat.mod_eq_of_lt (by omega)
  simp only [alloc, ← hcand, hnc]
  by_cases hcase : s.heap_end < cand + size
  · rw [if_pos hcase]
    exact ⟨⟨h1, h2, h3⟩, le_refl _, rfl, rfl, fun c hc => by simp at hc⟩
  · rw [if_neg hcase]
    push_neg at hcase
    refine ⟨⟨?_, ?_, ?_⟩, ?_, rfl, rfl, ?_⟩
    · show s.heap_start ≤ cand + size
      omega
    · exact hcase
    · exact h3
    · show s.heap_cursor ≤ cand + size
      omega
    · intro c hc
      have hceq : cand = c := by simpa using hc
      subst hceq
      exact ⟨hcand, rfl⟩

theorem runAllocs_append (l1 l2 : List (Nat × Nat × Nat)) (s : Space) :
    runAllocs s (l1 ++ l2) = runAllocs (runAllocs s l1) l2 := by
  induction l1 generalizing s with
  | nil => rfl
  | cons r rest ih => rw [List.cons_append, runAllocs, runAllocs, ih]

/-- Whole-sequence preservation of the invariant and the region bounds. -/
theorem runAllocs_inv (rs : List (Nat × Nat × Nat)) (s : Space) (hInv : Inv s)
    (hok : ∀ r ∈ rs, 0 < r.2.1 ∧ r.1 + r.2.1 + s.heap_end ≤ W) :
    Inv (runAllocs s rs) ∧
    s.heap_cursor ≤ (runAllocs s rs).heap_cursor ∧
    (runAllocs s rs).heap_start = s.heap_start ∧
    (runAllocs s rs).heap_end = s.heap_end := by
  induction rs generalizing s with
  | nil => exact ⟨hInv, le_refl _, rfl, rfl⟩
  | cons r rest ih =>
    have hr := hok r (List.mem_cons_self r rest)
    have hstep := alloc_step_inv none s r.1 r.2.1 r.2.2 0 hInv hr.1 hr.2
    have hok' : ∀ q ∈ rest,
        0 < q.2.1 ∧ q.1 + q.2.1 + (alloc none s r.1 r.2.1 r.2.2 0).2.heap_end ≤ W := by
      intro q hq
      rw [hstep.2.2.2.1]
      exact hok q (List.mem_cons_of_mem r hq)
    have hrec := ih (alloc none s r.1 r.2.1 r.2.2 0).2 hstep.1 hok'
    simp only [runAllocs]
    exact ⟨hrec.1, le_trans hstep.2.1 hrec.2.1,
      by rw [hrec.2.2.1, hstep.2.2.1],
      by rw [hrec.2.2.2, hstep.2.2.2.1]⟩

/-- C3 counterexample: after bootstrap with base 1 and capacity 100 the region
is [524288, 524388) with cursor 524288; allocating 40 bytes moves the cursor
to 524328; the next call with size 2^64 - 20 (align 1, offset 0) wraps
candidate + size to 524308 ≤ 524388, so alloc succeeds and the cursor
decreases from 524328 to 524308 — the claimed monotonicity fails as stated. -/
theorem cursor_monotone_counterexample :
    gc_init 1 100 = some ⟨524288, 524388, 524288⟩ ∧
    (alloc none ⟨524288, 524388, 524288⟩ 40 1 0 0).2 =
      ⟨524288, 524388, 524328⟩ ∧
    (alloc none ⟨524288, 524388, 524328⟩ (W - 20) 1 0 0).1 = some 524328 ∧
    (alloc none ⟨524288, 524388, 524328⟩ (W - 20) 1 0 0).2.heap_cursor <
      (⟨524288, 524388, 524328⟩ : Space).heap_cursor := by decide

/-- C3 (amended): for every sequence of alloc calls after bootstrap in which
every request has a positive alignment and cannot wrap the address space
(size + align + end ≤ 2^64), the invariant start ≤ cursor ≤ end holds after
every call, the cursor never decreases across the sequence, and after each
successful call the cursor equals that call's aligned candidate plus that
request's size. -/
theorem runAllocs_cursor_monotone (rs : List (Nat × Nat × Nat)) (s : Space)
    (hInv : Inv s)
    (hok : ∀ r ∈ rs, 0 < r.2.1 ∧ r.1 + r.2.1 + s.heap_end ≤ W) :
    ∀ n : Nat,
      Inv (runAllocs s (rs.take n)) ∧
      (runAllocs s (rs.take n)).heap_cursor ≤
        (runAllocs s (rs.take (n + 1))).heap_cursor ∧
      (∀ r, rs[n]? = some r →
        ∀ c, (alloc none (runAllocs s (rs.take n)) r.1 r.2.1 r.2.2 0).1 = some c →
          (runAllocs s (rs.take (n + 1))).heap_cursor = c + r.1) := by
  intro n
  have hokn : ∀ r ∈ rs.take n, 0 < r.2.1 ∧ r.1 + r.2.1 + s.heap_end ≤ W :=
    fun r hr => hok r (List.take_subset n rs hr)
  have hn := runAllocs_inv (rs.take n) s hInv hokn
  cases hget : rs[n]? with
  | none =>
    have hlen : rs.length ≤ n := List.getElem?_eq_none_iff.mp hget
    have heq : rs.take (n + 1) = rs.take n := by
      rw [List.take_of_length_le hlen, List.take_of_length_le (by omega)]
    rw [heq]
    exact ⟨hn.1, le_refl _, fun r hr => by simp at hr⟩
  | some r =>
    have htake : rs.take (n + 1) = rs.take n ++ [r] := by
      rw [List.take_succ, hget]
      rfl
    have hmem : r ∈ rs := List.getElem?_mem hget
    have hr := hok r hmem
    have hstep := alloc_step_inv none (runAllocs s (rs.take n)) r.1 r.2.1 r.2.2 0
      hn.1 hr.1 (by rw [hn.2.2.2]; exact hr.2)
    have hone : runAllocs s (rs.take (n + 1)) =
        (alloc none (runAllocs s (rs.take n)) r.1 r.2.1 r.2.2 0).2 := by
      rw [htake, runAllocs_append]
      rfl
    rw [hone]
    refine ⟨hn.1, hstep.2.1, ?_⟩
    intro q hq c hc
    have hqr : q = r := (Option.some.inj hq).symm
    subst hqr
    exact (hstep.2.2.2.2 c hc).2

/-- Witness for runAllocs_cursor_monotone: region [0, 100), one request of
8 bytes; after it the cursor is 8 = 0 + 8. -/
theorem runAllocs_cursor_monotone_witness :
    Inv (runAllocs ⟨0, 100, 0⟩ ([(8, 1, 0)].take 0)) ∧
    (runAllocs ⟨0, 100, 0⟩ ([(8, 1, 0)].take 0)).heap_cursor ≤
      (runAllocs ⟨0, 100, 0⟩ ([(8, 1, 0)].take 1)).heap_cursor ∧
    (runAllocs ⟨0, 100, 0⟩ ([(8, 1, 0)].take 1)).heap_cursor = 0 + 8 := by
  have h := runAllocs_cursor_monotone [(8, 1, 0)] ⟨0, 100, 0⟩
    ⟨Nat.zero_le _, Nat.zero_le _, by norm_num [W]⟩
    (by
      intro r hr
      rw [List.mem_singleton] at hr
      subst hr
      exact ⟨by norm_num, by norm_num [W]⟩) 0
  exact ⟨h.1, h.2.1, h.2.2 (8, 1, 0) rfl 0 (by decide)⟩

end BumpAlloc
